import Mathlib

/-!
Verification of the yggdrasil worker-supervisor subsystem
(`src/internal/transport/transporter.go`, `package main` part).

The Go source is shallowly embedded: pure helpers (`validEnvVar`,
`workerExists`, the exec-string split, the backoff arithmetic, PID-file
parsing) become Lean functions; the fallible, effectful operations
(`loadWorkerConfig`, `startWorker`, `stopWorker`, the directory-watch
event loop) become pure functions over explicit filesystem / signal
parameters returning `Except` or `Option` values.  `time.Duration`
values are `Int` nanoseconds.

The environment deny-list in the source is implemented with the Go
`regexp` package (`regexp.MustCompile(p).Match(b)`, an unanchored
search, where `.` matches any character except a newline).  We embed
that semantics with a small regular-expression type carrying a
character-class constructor, a Brzozowski-derivative matcher for the
anchored match, and a substring search on top of it.
-/

namespace Ygg

/-- Regular expressions over `Char`, with a character-class constructor
`cls` (used for the Go `.` metacharacter, which matches any character
except a newline, and for literal characters). -/
inductive RE : Type
  | zero : RE
  | eps : RE
  | cls : (Char → Bool) → RE
  | alt : RE → RE → RE
  | cat : RE → RE → RE
  | star : RE → RE

namespace RE

/-- Does the expression accept the empty string? -/
def nullable : RE → Bool
  | .zero => false
  | .eps => true
  | .cls _ => false
  | .alt a b => nullable a || nullable b
  | .cat a b => nullable a && nullable b
  | .star _ => true

/-- Brzozowski derivative of an expression by a character. -/
def deriv : RE → Char → RE
  | .zero, _ => .zero
  | .eps, _ => .zero
  | .cls p, c => if p c then .eps else .zero
  | .alt a b, c => .alt (deriv a c) (deriv b c)
  | .cat a b, c =>
      if nullable a then .alt (.cat (deriv a c) b) (deriv b c)
      else .cat (deriv a c) b
  | .star a, c => .cat (deriv a c) (.star a)

/-- Anchored match: does `r` accept exactly the string `s`? -/
def rmatch : RE → List Char → Bool
  | r, [] => nullable r
  | r, c :: s => rmatch (deriv r c) s

/-- Declarative acceptance semantics of an expression. -/
inductive Accepts : RE → List Char → Prop
  | eps : Accepts .eps []
  | cls {p : Char → Bool} {c : Char} : p c = true → Accepts (.cls p) [c]
  | altL {a b : RE} {s : List Char} : Accepts a s → Accepts (.alt a b) s
  | altR {a b : RE} {s : List Char} : Accepts b s → Accepts (.alt a b) s
  | cat {a b : RE} {s t : List Char} :
      Accepts a s → Accepts b t → Accepts (.cat a b) (s ++ t)
  | starNil {a : RE} : Accepts (.star a) []
  | starCat {a : RE} {s t : List Char} :
      Accepts a s → Accepts (.star a) t → Accepts (.star a) (s ++ t)

/-- Unanchored match, the semantics of the Go method `regexp.Regexp.Match`:
does some substring of `s` match `r`? -/
def searchMatch (r : RE) (s : List Char) : Bool :=
  s.tails.any fun t => t.inits.any fun u => rmatch r u

/-- Single literal character. -/
def chr (c : Char) : RE := .cls (fun x => x == c)

/-- Literal word. -/
def lits : List Char → RE
  | [] => .eps
  | c :: cs => .cat (chr c) (lits cs)

/-- The Go `.` metacharacter: any character except a newline. -/
def dotRE : RE := .cls (fun c => !(c == '\n'))

end RE

open RE in
/-- The compiled form of the Go pattern string `PATH=.*`. -/
def patPATH : RE := .cat (lits "PATH=".data) (.star dotRE)

open RE in
/-- The compiled form of the Go pattern string `YGG_.*=.*`. -/
def patYGG : RE :=
  .cat (lits "YGG_".data) (.cat (.star dotRE) (.cat (chr '=') (.star dotRE)))


/-- Model of the source function `validEnvVar`: the candidate entry is
rejected when either deny-list pattern matches anywhere inside it
(`PATH=.*` is tried first, then `YGG_.*=.*`), and accepted otherwise. -/
def validEnvVar (val : String) : Bool :=
  if RE.searchMatch patPATH val.data then false
  else if RE.searchMatch patYGG val.data then false
  else true

/-- Record type of the source `workerConfig` struct.  The exported
fields come from the TOML file; `delay` is a `time.Duration`
(an `Int` count of nanoseconds here) and `directive` is filled in by
`loadWorkerConfig`. -/
structure workerConfig where
  Exec : String
  Protocol : String
  Env : List String
  delay : Int
  directive : String

/-- One second as a `time.Duration` count of nanoseconds. -/
def second : Int := 1000000000

/-- Strip trailing path separators, first step of the Unix
`filepath.Base`. -/
def stripTrailingSlashes (l : List Char) : List Char :=
  (l.reverse.dropWhile (fun c => c == '/')).reverse

/-- Everything after the last path separator. -/
def afterLastSlash (l : List Char) : List Char :=
  (l.reverse.takeWhile (fun c => !(c == '/'))).reverse

/-- Model of `filepath.Base` on Unix. -/
def goBase (l : List Char) : List Char :=
  if l.isEmpty then ['.']
  else
    let l1 := stripTrailingSlashes l
    if l1.isEmpty then ['/'] else afterLastSlash l1

/-- Scan the reversed path for the extension: stop at a separator,
return the suffix starting at the first dot found. -/
def goExtAux : List Char → List Char → List Char
  | [], _ => []
  | c :: r, acc =>
    if c == '/' then []
    else if c == '.' then c :: acc
    else goExtAux r (c :: acc)

/-- Model of `filepath.Ext`: the suffix of the path beginning at the
final dot in the final path element, empty if there is none. -/
def goExt (l : List Char) : List Char := goExtAux l.reverse []

/-- Model of `strings.TrimSuffix`. -/
def goTrimSuffix (l suf : List Char) : List Char :=
  if suf.isSuffixOf l then l.take (l.length - suf.length) else l

/-- The directive computed by `loadWorkerConfig`:
`strings.TrimSuffix(filepath.Base(file), filepath.Ext(file))`. -/
def directiveOf (file : String) : String :=
  String.mk (goTrimSuffix (goBase file.data) (goExt file.data))

/-- Model of `loadWorkerConfig`.  Reading the file and unmarshalling
the TOML payload are passed in as explicit functions (`readF` models
`ioutil.ReadFile`, returning `none` on an unreadable file; `parse`
models `toml.Unmarshal`, returning `none` on a malformed structure).
On success the directive field is overwritten from the file name. -/
def loadWorkerConfig (readF : String → Option String)
    (parse : String → Option workerConfig) (file : String) : Option workerConfig :=
  match readF file with
  | none => none
  | some data =>
    match parse data with
    | none => none
    | some w => some { w with directive := directiveOf file }

/-- Model of `strings.Split(s, " ")`: split around every single space
character, keeping empty fields. -/
def goSplitSpace : List Char → List (List Char)
  | [] => [[]]
  | c :: cs =>
    match goSplitSpace cs with
    | [] => [[]]
    | t :: ts => if c == ' ' then [] :: t :: ts else (c :: t) :: ts

/-- Program/argument vector of a worker: `strings.Split(worker.Exec, " ")`. -/
def execArgv (exec : String) : List String := (goSplitSpace exec.data).map String.mk

/-- Static values consumed by `startWorker`: build-time directories,
logger state, the client configuration and the ambient proxy
environment. -/
structure Ctx where
  configDir : String
  logLevel : String
  clientID : String
  socketAddr : String
  httpProxy : String
  httpsProxy : String
  noProxy : String

/-- Fixed first entry of the child environment. -/
def pathBaseline : String :=
  "PATH=/usr/local/sbin:/usr/local/bin:/usr/sbin:/usr/bin:/sbin:/bin"

/-- Fixed baseline of the child environment. -/
def baseEnv (ctx : Ctx) : List String :=
  [pathBaseline,
   "YGG_CONFIG_DIR=" ++ ctx.configDir,
   "YGG_LOG_LEVEL=" ++ ctx.logLevel,
   "YGG_CLIENT_ID=" ++ ctx.clientID]

/-- Ambient proxy variables, copied when non-empty. -/
def proxyEnv (ctx : Ctx) : List String :=
  (if ctx.httpProxy ≠ "" then ["HTTP_PROXY=" ++ ctx.httpProxy] else []) ++
  (if ctx.httpsProxy ≠ "" then ["HTTPS_PROXY=" ++ ctx.httpsProxy] else []) ++
  (if ctx.noProxy ≠ "" then ["NO_PROXY=" ++ ctx.noProxy] else [])

/-- Environment construction inside `startWorker`: baseline, proxies,
then the protocol switch (only `"grpc"` is handled, every other value
returns the unsupported-protocol error before the user entries are
considered), then the user entries filtered through `validEnvVar`. -/
def buildEnv (ctx : Ctx) (worker : workerConfig) : Except String (List String) :=
  let env := baseEnv ctx ++ proxyEnv ctx
  if worker.Protocol = "grpc" then
    Except.ok ((env ++ ["YGG_SOCKET_ADDR=unix:" ++ ctx.socketAddr])
      ++ worker.Env.filter validEnvVar)
  else
    Except.error ("unsupported protocol: " ++ worker.Protocol)

/-- Model of `startWorker` up to the `startProcess` call: split the
exec string, build the environment (failing on an unsupported
protocol), then refuse a worker whose delay went negative.  An `ok`
result carries the program, arguments and environment handed to
`startProcess`; an `error` result means no process is started. -/
def startWorker (ctx : Ctx) (worker : workerConfig) :
    Except String (String × List String × List String) :=
  let argv := execArgv worker.Exec
  let program := argv.headD ""
  let args := if argv.length > 1 then argv.tail else []
  match buildEnv ctx worker with
  | .error e => .error e
  | .ok env =>
    if worker.delay < 0 then
      .error ("failed to start worker " ++ program ++ " too many times")
    else
      .ok (program, args, env)

/-- Delay update performed in the `waitProcess` callback on process
exit: a fast exit (measured system time below one second) adds five
seconds, and a delay that reached thirty seconds becomes the negative
terminal sentinel. -/
def exitDelayUpdate (sysTime : Int) (d : Int) : Int :=
  let d1 := if sysTime < second then d + 5 * second else d
  if d1 ≥ 30 * second then -1 else d1

/-- Delay accumulated after a sequence of exits with the given
measured system times, starting from the spec initial delay of zero. -/
def delaysAfter (ts : List Int) : Int :=
  ts.foldl (fun d t => exitDelayUpdate t d) 0

/-- Outcome of the `os.Stat` call inside `workerExists`. -/
inductive StatResult
  | ok
  | errNotExist
  | errOther
deriving DecidableEq

/-- Model of `workerExists`: `!os.IsNotExist(err)` — false exactly
when stat reports that the config file does not exist. -/
def workerExists (st : StatResult) : Bool :=
  match st with
  | .errNotExist => false
  | _ => true

/-- Stat outcome of a well-behaved filesystem in which the only
failure mode is absence of the file. -/
def statOfPresence (present : Bool) : StatResult :=
  if present then .ok else .errNotExist

/-- Model of the `waitProcess` callback body: update the delay from
the measured system time, then decide whether the recursive
`startWorker` call is attempted — it is attempted exactly when
`workerExists` returns true for the stat of the config file at exit
time.  Returns the worker value passed to the restart and the restart
decision. -/
def handleExit (worker : workerConfig) (sysTime : Int) (st : StatResult) :
    workerConfig × Bool :=
  ({ worker with delay := exitDelayUpdate sysTime worker.delay }, workerExists st)

/-- Whitespace class of the Go `unicode.IsSpace` (the White_Space
property). -/
def goIsSpace (c : Char) : Bool :=
  let n := c.toNat
  n == 0x09 || n == 0x0a || n == 0x0b || n == 0x0c || n == 0x0d || n == 0x20 ||
  n == 0x85 || n == 0xa0 || n == 0x1680 ||
  (decide (0x2000 ≤ n) && decide (n ≤ 0x200a)) ||
  n == 0x2028 || n == 0x2029 || n == 0x202f || n == 0x205f || n == 0x3000

/-- Model of `strings.TrimSpace`. -/
def goTrimSpace (l : List Char) : List Char :=
  ((l.dropWhile goIsSpace).reverse.dropWhile goIsSpace).reverse

/-- Decimal digits to a natural number. -/
def digitsToNat (l : List Char) : Nat :=
  l.foldl (fun acc c => acc * 10 + (c.toNat - 48)) 0

/-- Model of `strconv.ParseInt(s, 10, 64)`: an optional sign followed
by at least one decimal digit, rejected when the value does not fit in
a signed 64-bit integer. -/
def parseInt64 (s : List Char) : Option Int :=
  let core := fun (neg : Bool) (ds : List Char) =>
    if ds.isEmpty then none
    else if ds.all Char.isDigit then
      let n := digitsToNat ds
      if neg then
        if n ≤ 9223372036854775808 then some (-(n : Int)) else none
      else
        if n ≤ 9223372036854775807 then some ((n : Int)) else none
    else none
  match s with
  | [] => none
  | '+' :: r => core false r
  | '-' :: r => core true r
  | r => core false r

/-- Error cases of `stopWorker`. -/
inductive StopErr
  | readErr
  | parseErr
  | signalErr
  | removeErr
deriving DecidableEq

/-- Removal of one record from the PID store. -/
def removeRecord (store : String → Option String) (name : String) :
    String → Option String :=
  fun n => if n = name then none else store n

/-- Model of `stopWorker`.  The PID store maps a directive name to the
content of its `<name>.pid` file in the run directory; `sig` models
`stopProcess` (signal delivery to a pid), `removeOk` models whether
`os.Remove` succeeds.  The result carries the returned error (if any),
the store after the call, and the pid a signal was attempted on (if
any).  The steps happen in source order: read the record, parse its
trimmed content as a decimal integer, signal the pid, remove the
record. -/
def stopWorker (store : String → Option String) (sig : Int → Bool) (removeOk : Bool)
    (name : String) :
    Except StopErr Unit × (String → Option String) × Option Int :=
  match store name with
  | none => (.error .readErr, store, none)
  | some data =>
    match parseInt64 (goTrimSpace data.data) with
    | none => (.error .parseErr, store, none)
    | some pid =>
      if sig pid then
        if removeOk then (.ok (), removeRecord store name, some pid)
        else (.error .removeErr, store, some pid)
      else (.error .signalErr, store, some pid)

/-- Filesystem events delivered to the `watchWorkerDir` loop. -/
inductive WatchEvent
  | inCloseWrite (path : String)
  | inMovedTo (path : String)
  | inDelete (path : String)
  | inMovedFrom (path : String)

/-- What one iteration of the watch loop does to the loop itself. -/
inductive WatchStep
  | next
  | crashNilDeref
deriving DecidableEq

/-- Model of one iteration of the `watchWorkerDir` event loop.  On a
write-close or move-in event the config is loaded; when loading fails
the error is logged but the branch then dereferences the nil
`worker` pointer (`worker.directive` in the `ExcludeWorkers` lookup),
which panics.  When loading succeeds the loop always proceeds to the
next event (the start itself runs in a separate goroutine).  On a
delete or move-out event a failing `stopWorker` is logged and the loop
continues. -/
def handleWatchEvent (load : String → Option workerConfig)
    (_excluded : String → Bool) (e : WatchEvent) : WatchStep :=
  match e with
  | .inCloseWrite p | .inMovedTo p =>
    match load p with
    | none => .crashNilDeref
    | some _ => .next
  | .inDelete _ | .inMovedFrom _ => .next

/-- Iterated fast-exit delay update (every exit measured below one
second), used to reason about `delaysAfter`. -/
def fastIter : Nat → Int → Int
  | 0, d => d
  | n + 1, d => fastIter n (exitDelayUpdate 0 d)

/-- Join fields with single spaces, the specification-side inverse of
the split performed on the exec string. -/
def joinSpace : List (List Char) → List Char
  | [] => []
  | [t] => t
  | t :: ts => t ++ ' ' :: joinSpace ts

/-- Remove the extension (the suffix starting at the last dot, when
there is one) from a base name. -/
def dropLastDot (b : List Char) : List Char :=
  if '.' ∈ b then ((b.reverse.dropWhile (fun c => !(c == '.'))).drop 1).reverse
  else b

/-- Modelled from the spec: the filename stem is the base name (the
part after the last path separator) with its extension removed. -/
def specStem (l : List Char) : List Char := dropLastDot (afterLastSlash l)

/-- Concrete static context used by the witness theorems. -/
def ctx0 : Ctx :=
  { configDir := "/etc/yggdrasil"
    logLevel := "info"
    clientID := "cid"
    socketAddr := "@yggd"
    httpProxy := ""
    httpsProxy := ""
    noProxy := "" }

/-- Concrete grpc worker used by the witness theorems. -/
def wGrpc : workerConfig :=
  { Exec := "/bin/echo hi"
    Protocol := "grpc"
    Env := ["YGG_CLIENT_ID=evil", "TERM=xterm"]
    delay := 0
    directive := "echo" }

/-- Concrete worker with an unsupported protocol. -/
def wBad : workerConfig :=
  { Exec := "/bin/echo hi"
    Protocol := "mqtt"
    Env := []
    delay := 0
    directive := "echo" }

/-- Concrete worker whose delay reached the terminal sentinel. -/
def wNeg : workerConfig :=
  { Exec := "/bin/echo hi"
    Protocol := "grpc"
    Env := []
    delay := -1
    directive := "echo" }

/-- Concrete PID store holding one record. -/
def storeW : String → Option String :=
  fun n => if n = "w" then some " 42\n" else none

/-- Concrete file reader for the `loadWorkerConfig` witness. -/
def readF0 : String → Option String := fun _ => some ""

/-- Concrete TOML parser for the `loadWorkerConfig` witness. -/
def parse0 : String → Option workerConfig :=
  fun _ => some { Exec := "x", Protocol := "grpc", Env := [], delay := 0, directive := "" }

/-! ### Proof development: properties of the embedded definitions -/

namespace RE

theorem nullable_iff (r : RE) : nullable r = true ↔ Accepts r [] := by
  induction r with
  | zero =>
    constructor
    · intro h; simp [nullable] at h
    · intro h; cases h
  | eps =>
    simp only [nullable, true_iff]
    exact .eps
  | cls p =>
    constructor
    · intro h; simp [nullable] at h
    · intro h; cases h
  | alt a b iha ihb =>
    simp only [nullable, Bool.or_eq_true, iha, ihb]
    constructor
    · rintro (h | h)
      · exact .altL h
      · exact .altR h
    · intro h
      cases h with
      | altL h => exact Or.inl h
      | altR h => exact Or.inr h
  | cat a b iha ihb =>
    simp only [nullable, Bool.and_eq_true, iha, ihb]
    constructor
    · rintro ⟨ha, hb⟩
      exact (List.nil_append ([] : List Char) ▸ Accepts.cat ha hb)
    · intro h
      generalize hx : ([] : List Char) = x at h
      cases h with
      | cat h1 h2 =>
        obtain ⟨hs, ht⟩ := List.append_eq_nil.mp hx.symm
        subst hs; subst ht
        exact ⟨h1, h2⟩
  | star a iha =>
    simp only [nullable, true_iff]
    exact .starNil

/-- Inversion for `star`: a nonempty accepted string splits off a
nonempty chunk accepted by the body. -/
theorem star_inv {a : RE} {s : List Char} (h : Accepts (.star a) s) :
    s = [] ∨ ∃ s₁ s₂, s = s₁ ++ s₂ ∧ s₁ ≠ [] ∧ Accepts a s₁ ∧ Accepts (.star a) s₂ := by
  generalize hr : RE.star a = r at h
  induction h with
  | eps => cases hr
  | cls _ => cases hr
  | altL _ ih => cases hr
  | altR _ ih => cases hr
  | cat _ _ ih1 ih2 => cases hr
  | starNil => exact Or.inl rfl
  | starCat h1 h2 ih1 ih2 =>
    cases hr
    rename_i s₁ s₂
    rcases Decidable.em (s₁ = []) with he | he
    · subst he
      simpa using ih2 rfl
    · exact Or.inr ⟨s₁, s₂, rfl, he, h1, h2⟩

theorem accepts_deriv (r : RE) : ∀ (c : Char) (s : List Char),
    Accepts (deriv r c) s ↔ Accepts r (c :: s) := by
  induction r with
  | zero =>
    intro c s
    simp only [deriv]
    constructor
    · intro h; cases h
    · intro h; cases h
  | eps =>
    intro c s
    simp only [deriv]
    constructor
    · intro h; cases h
    · intro h; cases h
  | cls p =>
    intro c s
    simp only [deriv]
    by_cases hp : p c = true
    · simp only [hp, if_true]
      constructor
      · intro h; cases h; exact .cls hp
      · intro h; cases h; exact .eps
    · simp only [hp, if_false]
      constructor
      · intro h; cases h
      · intro h
        cases h
        exact absurd (by assumption) hp
  | alt a b iha ihb =>
    intro c s
    simp only [deriv]
    constructor
    · intro h
      cases h with
      | altL h => exact .altL ((iha c s).mp h)
      | altR h => exact .altR ((ihb c s).mp h)
    · intro h
      cases h with
      | altL h => exact .altL ((iha c s).mpr h)
      | altR h => exact .altR ((ihb c s).mpr h)
  | cat a b iha ihb =>
    intro c s
    simp only [deriv]
    by_cases hn : nullable a = true
    · simp only [hn, if_true]
      constructor
      · intro h
        cases h with
        | altL h =>
          generalize hx : s = x at h
          cases h with
          | cat h1 h2 =>
            subst hx
            simpa using Accepts.cat ((iha c _).mp h1) h2
        | altR h =>
          have ha : Accepts a [] := (nullable_iff a).mp hn
          simpa using Accepts.cat ha ((ihb c s).mp h)
      · intro h
        generalize hx : c :: s = x at h
        cases h with
        | cat h1 h2 =>
          rename_i s₁ s₂
          cases s₁ with
          | nil =>
            simp only [List.nil_append] at hx
            subst hx
            exact .altR ((ihb c _).mpr h2)
          | cons c' s₁' =>
            simp only [List.cons_append, List.cons.injEq] at hx
            obtain ⟨hc, hs⟩ := hx
            subst hc; subst hs
            exact .altL (Accepts.cat ((iha c s₁').mpr h1) h2)
    · simp only [hn, if_false]
      constructor
      · intro h
        generalize hx : s = x at h
        cases h with
        | cat h1 h2 =>
          subst hx
          simpa using Accepts.cat ((iha c _).mp h1) h2
      · intro h
        generalize hx : c :: s = x at h
        cases h with
        | cat h1 h2 =>
          rename_i s₁ s₂
          cases s₁ with
          | nil =>
            exact absurd ((nullable_iff a).mpr h1) hn
          | cons c' s₁' =>
            simp only [List.cons_append, List.cons.injEq] at hx
            obtain ⟨hc, hs⟩ := hx
            subst hc; subst hs
            exact Accepts.cat ((iha c s₁').mpr h1) h2
  | star a iha =>
    intro c s
    simp only [deriv]
    constructor
    · intro h
      generalize hx : s = x at h
      cases h with
      | cat h1 h2 =>
        subst hx
        simpa using Accepts.starCat ((iha c _).mp h1) h2
    · intro h
      rcases star_inv h with he | ⟨s₁, s₂, heq, hne, h1, h2⟩
      · cases he
      · cases s₁ with
        | nil => exact absurd rfl hne
        | cons c' s₁' =>
          simp only [List.cons_append, List.cons.injEq] at heq
          obtain ⟨hc, hs⟩ := heq
          subst hc; subst hs
          exact Accepts.cat ((iha _ _).mpr h1) h2

theorem rmatch_iff : ∀ (s : List Char) (r : RE), rmatch r s = true ↔ Accepts r s := by
  intro s
  induction s with
  | nil => intro r; simpa only [rmatch] using nullable_iff r
  | cons c s ih =>
    intro r
    simp only [rmatch]
    exact (ih (deriv r c)).trans (accepts_deriv r c s)

theorem searchMatch_iff (r : RE) (s : List Char) :
    searchMatch r s = true ↔ ∃ a b c, s = a ++ b ++ c ∧ Accepts r b := by
  simp only [searchMatch, List.any_eq_true, List.mem_tails, List.mem_inits, rmatch_iff]
  constructor
  · rintro ⟨t, ⟨a, ha⟩, u, ⟨c, hc⟩, hm⟩
    exact ⟨a, u, c, by rw [← ha, ← hc, List.append_assoc], hm⟩
  · rintro ⟨a, b, c, hs, hm⟩
    exact ⟨b ++ c, ⟨a, by rw [hs, List.append_assoc]⟩, b, ⟨c, rfl⟩, hm⟩

theorem accepts_chr {c : Char} {s : List Char} : Accepts (chr c) s ↔ s = [c] := by
  constructor
  · intro h
    cases h with
    | cls hp =>
      simp only [beq_iff_eq] at hp
      subst hp
      rfl
  · rintro rfl
    exact .cls (by simp)

theorem accepts_lits : ∀ (w s : List Char), Accepts (lits w) s ↔ s = w
  | [], s => by
      simp only [lits]
      constructor
      · intro h; cases h; rfl
      · rintro rfl; exact .eps
  | c :: w, s => by
      simp only [lits]
      constructor
      · intro h
        cases h with
        | cat h1 h2 =>
          obtain rfl := accepts_chr.mp h1
          obtain rfl := (accepts_lits w _).mp h2
          rfl
      · rintro rfl
        exact (show [c] ++ w = c :: w from rfl) ▸
          Accepts.cat (accepts_chr.mpr rfl) ((accepts_lits w w).mpr rfl)

theorem accepts_star_dot {s : List Char} :
    Accepts (.star dotRE) s ↔ ∀ c ∈ s, c ≠ '\n' := by
  constructor
  · intro h
    generalize hr : RE.star dotRE = r at h
    induction h with
    | eps => cases hr
    | cls _ => cases hr
    | altL _ ih => cases hr
    | altR _ ih => cases hr
    | cat _ _ ih1 ih2 => cases hr
    | starNil => intro c hc; cases hc
    | starCat h1 h2 ih1 ih2 =>
      injection hr with ha
      subst ha
      intro c hc
      rcases List.mem_append.mp hc with hm | hm
      · cases h1 with
        | cls hp =>
          simp only [List.mem_singleton] at hm
          subst hm
          simpa using hp
      · exact ih2 rfl c hm
  · intro h
    induction s with
    | nil => exact .starNil
    | cons c s ih =>
      have hc : c ≠ '\n' := h c (List.mem_cons_self c s)
      have hs : ∀ x ∈ s, x ≠ '\n' := fun x hx => h x (List.mem_cons_of_mem c hx)
      have h1 : Accepts dotRE [c] := .cls (by simpa using hc)
      exact (show [c] ++ s = c :: s from rfl) ▸ Accepts.starCat h1 (ih hs)

theorem accepts_patPATH {s : List Char} :
    Accepts patPATH s ↔ ∃ b, s = "PATH=".data ++ b ∧ ∀ c ∈ b, c ≠ '\n' := by
  constructor
  · intro h
    simp only [patPATH] at h
    cases h with
    | cat h1 h2 =>
      obtain rfl := (accepts_lits _ _).mp h1
      exact ⟨_, rfl, accepts_star_dot.mp h2⟩
  · rintro ⟨b, rfl, hb⟩
    exact Accepts.cat ((accepts_lits _ _).mpr rfl) (accepts_star_dot.mpr hb)

theorem accepts_patYGG {s : List Char} :
    Accepts patYGG s ↔
      ∃ b c, s = "YGG_".data ++ b ++ '=' :: c ∧
        (∀ x ∈ b, x ≠ '\n') ∧ (∀ x ∈ c, x ≠ '\n') := by
  constructor
  · intro h
    simp only [patYGG] at h
    cases h with
    | cat h1 h2 =>
      obtain rfl := (accepts_lits _ _).mp h1
      cases h2 with
      | cat h3 h4 =>
        have hb := accepts_star_dot.mp h3
        cases h4 with
        | cat h5 h6 =>
          obtain rfl := accepts_chr.mp h5
          exact ⟨_, _, by simp, hb, accepts_star_dot.mp h6⟩
  · rintro ⟨b, c, rfl, hb, hc⟩
    have h := Accepts.cat ((accepts_lits "YGG_".data _).mpr rfl)
      (Accepts.cat (accepts_star_dot.mpr hb)
        (Accepts.cat ((@accepts_chr '=' ['=']).mpr rfl) (accepts_star_dot.mpr hc)))
    simpa [patYGG, List.append_assoc] using h

theorem searchMatch_patPATH (s : List Char) :
    searchMatch patPATH s = true ↔ ∃ a b, s = a ++ "PATH=".data ++ b := by
  rw [searchMatch_iff]
  constructor
  · rintro ⟨a, m, t, rfl, hm⟩
    obtain ⟨b, rfl, hb⟩ := accepts_patPATH.mp hm
    exact ⟨a, b ++ t, by simp [List.append_assoc]⟩
  · rintro ⟨a, b, rfl⟩
    exact ⟨a, "PATH=".data, b, by simp, accepts_patPATH.mpr ⟨[], by simp, by simp⟩⟩

theorem searchMatch_patYGG (s : List Char) :
    searchMatch patYGG s = true ↔
      ∃ a b c, s = a ++ "YGG_".data ++ b ++ '=' :: c ∧ ∀ x ∈ b, x ≠ '\n' := by
  rw [searchMatch_iff]
  constructor
  · rintro ⟨a, m, t, rfl, hm⟩
    obtain ⟨b, c, rfl, hb, hc⟩ := accepts_patYGG.mp hm
    exact ⟨a, b, c ++ t, by simp [List.append_assoc], hb⟩
  · rintro ⟨a, b, c, rfl, hb⟩
    refine ⟨a, "YGG_".data ++ b ++ ['='], c, by simp [List.append_assoc], ?_⟩
    exact accepts_patYGG.mpr ⟨b, [], by simp [List.append_assoc], hb, by simp⟩

end RE

theorem validEnvVar_eq_false_iff (v : String) :
    validEnvVar v = false ↔
      RE.searchMatch patPATH v.data = true ∨ RE.searchMatch patYGG v.data = true := by
  unfold validEnvVar
  split
  · simp_all
  · split
    · simp_all
    · simp_all

theorem exitDelayUpdate_fast {t : Int} (ht : t < second) (d : Int) :
    exitDelayUpdate t d = exitDelayUpdate 0 d := by
  unfold exitDelayUpdate
  rw [if_pos ht, if_pos (show (0 : Int) < second by decide)]

theorem foldl_fast (ts : List Int) :
    (∀ t ∈ ts, t < second) → ∀ d : Int,
      ts.foldl (fun d t => exitDelayUpdate t d) d = fastIter ts.length d := by
  induction ts with
  | nil => intro _ d; rfl
  | cons t ts ih =>
    intro h d
    have ht : t < second := h t (List.mem_cons_self t ts)
    simp only [List.foldl_cons, List.length_cons, fastIter]
    rw [exitDelayUpdate_fast ht d]
    exact ih (fun x hx => h x (List.mem_cons_of_mem t hx)) _

/-- C1: starting from delay 0, each process exit whose measured system
time is below one second adds five seconds to the delay, so after `N`
consecutive sub-one-second exits the delay equals `min (5s·N) 30s`
while `N ≤ 5`; at the sixth such exit the delay reaches thirty seconds
and is set to the negative terminal sentinel; and a `startWorker` call
on a worker with negative delay returns an error and starts no
process. -/
theorem c1_backoff_policy :
    (∀ ts : List Int, (∀ t ∈ ts, t < second) →
      (ts.length ≤ 5 →
        delaysAfter ts = min (5 * (ts.length : Int) * second) (30 * second)) ∧
      (ts.length = 6 → delaysAfter ts = -1)) ∧
    (∀ (ctx : Ctx) (w : workerConfig), w.delay < 0 →
      ∃ e, startWorker ctx w = .error e) := by
  constructor
  · intro ts hts
    have hf : delaysAfter ts = fastIter ts.length 0 := foldl_fast ts hts 0
    constructor
    · intro hlen
      rw [hf]
      generalize ts.length = n at hlen ⊢
      interval_cases n <;> decide
    · intro hlen
      rw [hf, hlen]
      decide
  · intro ctx w hw
    unfold startWorker
    cases hbe : buildEnv ctx w with
    | error e => exact ⟨e, by simp⟩
    | ok env =>
      refine ⟨"failed to start worker " ++ (execArgv w.Exec).headD "" ++
        " too many times", ?_⟩
      simp only [hbe]
      rw [if_pos hw]

/-- Witness for C1 at concrete inputs: four fast exits give a delay of
twenty seconds, six fast exits give the terminal sentinel, and a
worker with delay `-1` is refused. -/
theorem c1_backoff_policy_witness :
    delaysAfter [0, 0, 0, 0] = 20 * second ∧
    delaysAfter [0, 0, 0, 0, 0, 0] = -1 ∧
    ∃ e, startWorker ctx0 wNeg = .error e := by
  refine ⟨?_, ?_, ?_⟩
  · have h := (c1_backoff_policy.1 [0, 0, 0, 0] (by decide)).1 (by decide)
    rw [h]; decide
  · exact (c1_backoff_policy.1 [0, 0, 0, 0, 0, 0] (by decide)).2 (by decide)
  · exact c1_backoff_policy.2 ctx0 wNeg (by decide)

/-- C2: on process exit, the recursive `startWorker` call is attempted
exactly when the stat of the config file at exit time reports it
present; in particular a config file removed before the exit
(`errNotExist`) yields no restart attempt. -/
theorem c2_restart_iff_config_exists :
    ∀ (w : workerConfig) (sysTime : Int) (present : Bool),
      (handleExit w sysTime (statOfPresence present)).2 = present ∧
      (handleExit w sysTime .errNotExist).2 = false := by
  intro w t present
  constructor
  · cases present <;> rfl
  · rfl

/-- C3 (code bug): an `InCloseWrite` event whose file fails to load as
a worker config does not let the loop continue — after logging the
error the branch falls through and dereferences the nil `worker`
pointer, crashing the watcher; the delete branch, by contrast, does
continue after a failed stop. -/
theorem c3_load_failure_crashes_watch_loop :
    handleWatchEvent (fun _ => none) (fun _ => false)
      (.inCloseWrite "/etc/yggdrasil/workers/bad.toml") = .crashNilDeref ∧
    handleWatchEvent (fun _ => none) (fun _ => false)
      (.inDelete "/etc/yggdrasil/workers/bad.toml") = .next :=
  ⟨rfl, rfl⟩

/-- C10: `workerExists` returns false only for the does-not-exist stat
outcome; any other stat failure (for example a permission error)
yields true, so the post-exit restart decision treats an unverifiable
config file as still existing and proceeds to restart. -/
theorem c10_workerExists_stat_errors :
    (∀ st : StatResult, workerExists st = false ↔ st = .errNotExist) ∧
    (∀ (w : workerConfig) (sysTime : Int),
      (handleExit w sysTime .errOther).2 = true) := by
  constructor
  · intro st
    cases st <;> simp [workerExists]
  · intro w t
    rfl

/-- C4: the environment built by `startWorker` is the fixed prefix
followed by the user entries filtered through `validEnvVar`, and no
user-declared entry matched by either deny-list pattern survives the
filter. -/
theorem c4_user_env_denylist :
    ∀ (ctx : Ctx) (w : workerConfig) (v : String) (env : List String),
      buildEnv ctx w = .ok env →
      env = (baseEnv ctx ++ proxyEnv ctx ++ ["YGG_SOCKET_ADDR=unix:" ++ ctx.socketAddr])
          ++ w.Env.filter validEnvVar ∧
      (v ∈ w.Env →
        (RE.searchMatch patPATH v.data = true ∨ RE.searchMatch patYGG v.data = true) →
        v ∉ w.Env.filter validEnvVar) := by
  intro ctx w v env hok
  constructor
  · unfold buildEnv at hok
    by_cases hp : w.Protocol = "grpc"
    · rw [if_pos hp] at hok
      cases hok
      rfl
    · rw [if_neg hp] at hok
      cases hok
  · intro hv hm hmem
    have hval : validEnvVar v = true := (List.mem_filter.mp hmem).2
    have hfalse : validEnvVar v = false := (validEnvVar_eq_false_iff v).mpr hm
    rw [hval] at hfalse
    cases hfalse

/-- Witness for C4: the user entry `YGG_CLIENT_ID=evil` of the
concrete worker is dropped from the built environment. -/
theorem c4_user_env_denylist_witness :
    ∃ env, buildEnv ctx0 wGrpc = Except.ok env ∧
      "YGG_CLIENT_ID=evil" ∉ wGrpc.Env.filter validEnvVar := by
  refine ⟨_, rfl, ?_⟩
  exact (c4_user_env_denylist ctx0 wGrpc "YGG_CLIENT_ID=evil" _ rfl).2
    (by decide) (Or.inr (by decide))

/-- C5: `stopWorker` reads the PID record, parses its trimmed content
as a decimal integer, signals the pid, then removes the record, in
that order; a missing record yields the read error with no signal and
no removal; unparsable content yields the parse error with no signal
and the record left in place; failed signal delivery yields an error
with the record left in place. -/
theorem c5_stopWorker_spec :
    ∀ (store : String → Option String) (sig : Int → Bool) (removeOk : Bool)
      (name : String),
      (store name = none →
        stopWorker store sig removeOk name = (.error .readErr, store, none)) ∧
      (∀ data, store name = some data →
        parseInt64 (goTrimSpace data.data) = none →
        stopWorker store sig removeOk name = (.error .parseErr, store, none)) ∧
      (∀ data pid, store name = some data →
        parseInt64 (goTrimSpace data.data) = some pid →
        sig pid = false →
        stopWorker store sig removeOk name = (.error .signalErr, store, some pid)) ∧
      (∀ data pid, store name = some data →
        parseInt64 (goTrimSpace data.data) = some pid →
        sig pid = true → removeOk = true →
        stopWorker store sig removeOk name = (.ok (), removeRecord store name, some pid) ∧
        removeRecord store name name = none) := by
  intro store sig removeOk name
  refine ⟨?_, ?_, ?_, ?_⟩
  · intro h
    simp [stopWorker, h]
  · intro data h hp
    simp [stopWorker, h, hp]
  · intro data pid h hp hs
    simp [stopWorker, h, hp, hs]
  · intro data pid h hp hs hr
    subst hr
    constructor
    · simp [stopWorker, h, hp, hs]
    · simp [removeRecord]

/-- Witness for C5: stopping the concrete record `" 42\x0a"` under a
succeeding signal parses pid 42, signals it and removes the record. -/
theorem c5_stopWorker_spec_witness :
    stopWorker storeW (fun _ => true) true "w" =
      (.ok (), removeRecord storeW "w", some 42) ∧
    removeRecord storeW "w" "w" = none :=
  (c5_stopWorker_spec storeW (fun _ => true) true "w").2.2.2 " 42\n" 42
    (by decide) (by decide) rfl rfl

/-- C8: exactly the protocol value `grpc` is supported — it makes
`buildEnv` succeed with the transport socket-address binding variable
in the environment; every other protocol value makes `buildEnv` return
the unsupported-protocol error and `startWorker` start no process. -/
theorem c8_protocol_grpc_only :
    ∀ (ctx : Ctx) (w : workerConfig),
      (w.Protocol = "grpc" →
        ∃ env, buildEnv ctx w = .ok env ∧
          ("YGG_SOCKET_ADDR=unix:" ++ ctx.socketAddr) ∈ env) ∧
      (w.Protocol ≠ "grpc" →
        buildEnv ctx w = .error ("unsupported protocol: " ++ w.Protocol) ∧
        ∀ r, startWorker ctx w ≠ .ok r) := by
  intro ctx w
  constructor
  · intro hp
    refine ⟨(baseEnv ctx ++ proxyEnv ctx ++ ["YGG_SOCKET_ADDR=unix:" ++ ctx.socketAddr])
        ++ w.Env.filter validEnvVar, ?_, ?_⟩
    · unfold buildEnv
      rw [if_pos hp]
    · exact List.mem_append.mpr (Or.inl (List.mem_append.mpr
        (Or.inr (List.mem_singleton.mpr rfl))))
  · intro hp
    have hbe : buildEnv ctx w = .error ("unsupported protocol: " ++ w.Protocol) := by
      unfold buildEnv
      rw [if_neg hp]
    refine ⟨hbe, ?_⟩
    intro r hcontra
    simp [startWorker, hbe] at hcontra

/-- Witness for C8: the concrete grpc worker gets the socket-address
variable; the concrete mqtt worker is rejected and never started. -/
theorem c8_protocol_grpc_only_witness :
    (∃ env, buildEnv ctx0 wGrpc = .ok env ∧
      ("YGG_SOCKET_ADDR=unix:" ++ ctx0.socketAddr) ∈ env) ∧
    buildEnv ctx0 wBad = .error ("unsupported protocol: " ++ wBad.Protocol) ∧
    (∀ r, startWorker ctx0 wBad ≠ .ok r) :=
  ⟨(c8_protocol_grpc_only ctx0 wGrpc).1 rfl,
   (c8_protocol_grpc_only ctx0 wBad).2 (by decide)⟩

/-- C9 (amended): the deny-list match is an unanchored substring
search, but the gap matched by `.*` cannot contain a newline:
`validEnvVar` returns false exactly for strings containing `PATH=`
anywhere, or containing `YGG_` followed by newline-free characters and
then `=`; in particular `CLASSPATH=/x` and `XYGG_A=b` are dropped. -/
theorem c9_denylist_substring_semantics :
    (∀ v : String, validEnvVar v = false ↔
      (∃ a b, v.data = a ++ "PATH=".data ++ b) ∨
      (∃ a b c, v.data = a ++ "YGG_".data ++ b ++ '=' :: c ∧ ∀ x ∈ b, x ≠ '\n')) ∧
    validEnvVar "CLASSPATH=/x" = false ∧
    validEnvVar "XYGG_A=b" = false := by
  refine ⟨?_, by decide, by decide⟩
  intro v
  rw [validEnvVar_eq_false_iff, RE.searchMatch_patPATH, RE.searchMatch_patYGG]

/-- C9 counterexample: the string `YGG_\x0a=x` contains `YGG_`
followed by characters and `=`, yet `validEnvVar` accepts it, because
the Go `.` does not match the newline standing between them. -/
theorem c9_denylist_counterexample :
    validEnvVar "YGG_\n=x" = true ∧
    ∃ a b c, "YGG_\n=x".data = a ++ "YGG_".data ++ b ++ '=' :: c :=
  ⟨by decide, [], ['\n'], ['x'], by decide⟩

theorem goSplitSpace_ne_nil : ∀ l : List Char, goSplitSpace l ≠ [] := by
  intro l
  induction l with
  | nil => simp [goSplitSpace]
  | cons c cs ih =>
    cases h : goSplitSpace cs with
    | nil => exact absurd h ih
    | cons t ts =>
      simp only [goSplitSpace, h]
      split <;> simp

theorem joinSpace_goSplitSpace : ∀ l : List Char, joinSpace (goSplitSpace l) = l := by
  intro l
  induction l with
  | nil => rfl
  | cons c cs ih =>
    cases hts : goSplitSpace cs with
    | nil => exact absurd hts (goSplitSpace_ne_nil cs)
    | cons t ts =>
      rw [hts] at ih
      simp only [goSplitSpace, hts]
      by_cases hc : (c == ' ') = true
      · rw [if_pos hc]
        have hcc : c = ' ' := by simpa using hc
        subst hcc
        simp [joinSpace, ih]
      · rw [if_neg hc]
        cases ts with
        | nil =>
          simp only [joinSpace] at ih ⊢
          rw [ih]
        | cons t2 ts2 =>
          simp only [joinSpace, List.cons_append] at ih ⊢
          rw [ih]

theorem no_space_in_goSplitSpace :
    ∀ (l : List Char) (t : List Char), t ∈ goSplitSpace l → ' ' ∉ t := by
  intro l
  induction l with
  | nil =>
    intro t ht
    simp only [goSplitSpace, List.mem_singleton] at ht
    subst ht
    simp
  | cons c cs ih =>
    intro t ht
    cases hts : goSplitSpace cs with
    | nil => exact absurd hts (goSplitSpace_ne_nil cs)
    | cons t0 ts0 =>
      simp only [goSplitSpace, hts] at ht
      by_cases hc : (c == ' ') = true
      · rw [if_pos hc] at ht
        rcases List.mem_cons.mp ht with h1 | h1
        · subst h1; simp
        · exact ih t (by rw [hts]; exact h1)
      · rw [if_neg hc] at ht
        have hcc : ¬ c = ' ' := by simpa using hc
        rcases List.mem_cons.mp ht with h1 | h1
        · subst h1
          intro hsp
          rcases List.mem_cons.mp hsp with h2 | h2
          · exact hcc h2.symm
          · exact ih t0 (by rw [hts]; exact List.mem_cons_self t0 ts0) h2
        · exact ih t (by rw [hts]; exact List.mem_cons_of_mem t0 h1)

/-- C7 (amended): `startWorker` splits the exec string on single space
characters (`strings.Split` with separator `" "`), not on general
whitespace: the program is the first field and the arguments are the
remaining fields (the length guard in the source equals taking the
tail); joining the fields back with single spaces restores the exec
string and no field contains a space — but consecutive spaces yield
empty fields and non-space whitespace does not separate. -/
theorem c7_exec_split_semantics :
    ∀ exec : String,
      execArgv exec ≠ [] ∧
      joinSpace (goSplitSpace exec.data) = exec.data ∧
      (∀ t ∈ goSplitSpace exec.data, ' ' ∉ t) ∧
      (if (execArgv exec).length > 1 then (execArgv exec).tail else [])
        = (execArgv exec).tail := by
  intro exec
  refine ⟨?_, joinSpace_goSplitSpace _, no_space_in_goSplitSpace _, ?_⟩
  · unfold execArgv
    intro h
    exact goSplitSpace_ne_nil exec.data (List.map_eq_nil_iff.mp h)
  · rcases hv : execArgv exec with _ | ⟨x, _ | ⟨y, ys⟩⟩
    · simp
    · simp
    · simp

/-- C7 counterexample: with a tab instead of a space the exec string
is not split at all (the claimed whitespace splitting would give
program `echo`), and a double space yields an empty argument token
(the claim asserts no empty tokens arise). -/
theorem c7_split_counterexample :
    execArgv "echo\thi" = ["echo\thi"] ∧
    execArgv "echo\thi" ≠ ["echo", "hi"] ∧
    execArgv "echo  hi" = ["echo", "", "hi"] :=
  ⟨by decide, by decide, by decide⟩

theorem takeWhile_all (p : Char → Bool) :
    ∀ xs : List Char, (∀ x ∈ xs, p x = true) → xs.takeWhile p = xs := by
  intro xs
  induction xs with
  | nil => intro _; rfl
  | cons a xs ih =>
    intro h
    rw [List.takeWhile_cons_of_pos (h a (List.mem_cons_self a xs)),
        ih (fun x hx => h x (List.mem_cons_of_mem a hx))]

theorem takeWhile_append_sat (p : Char → Bool) (y : Char) (ys : List Char)
    (hy : p y = false) :
    ∀ xs : List Char, (∀ x ∈ xs, p x = true) →
      (xs ++ y :: ys).takeWhile p = xs := by
  intro xs
  induction xs with
  | nil =>
    intro _
    simp only [List.nil_append]
    rw [List.takeWhile_cons_of_neg (by simp [hy])]
  | cons a xs ih =>
    intro h
    simp only [List.cons_append]
    rw [List.takeWhile_cons_of_pos (h a (List.mem_cons_self a xs)),
        ih (fun x hx => h x (List.mem_cons_of_mem a hx))]

theorem dropWhile_append_sat (p : Char → Bool) (y : Char) (ys : List Char)
    (hy : p y = false) :
    ∀ xs : List Char, (∀ x ∈ xs, p x = true) →
      (xs ++ y :: ys).dropWhile p = y :: ys := by
  intro xs
  induction xs with
  | nil =>
    intro _
    simp only [List.nil_append]
    rw [List.dropWhile_cons_of_neg (by simp [hy])]
  | cons a xs ih =>
    intro h
    simp only [List.cons_append]
    rw [List.dropWhile_cons_of_pos (h a (List.mem_cons_self a xs)),
        ih (fun x hx => h x (List.mem_cons_of_mem a hx))]

theorem exists_last_split (c : Char) :
    ∀ l : List Char, c ∈ l → ∃ p q, l = p ++ c :: q ∧ c ∉ q := by
  intro l
  induction l with
  | nil => intro h; cases h
  | cons a l ih =>
    intro h
    by_cases hc : c ∈ l
    · obtain ⟨p, q, rfl, hq⟩ := ih hc
      exact ⟨a :: p, q, rfl, hq⟩
    · have ha : c = a := by
        rcases List.mem_cons.mp h with h1 | h1
        · exact h1
        · exact absurd h1 hc
      subst ha
      exact ⟨[], l, rfl, hc⟩

theorem exists_first_split (c : Char) :
    ∀ l : List Char, c ∈ l → ∃ p q, l = p ++ c :: q ∧ c ∉ p := by
  intro l
  induction l with
  | nil => intro h; cases h
  | cons a l ih =>
    intro h
    by_cases ha : c = a
    · subst ha
      exact ⟨[], l, rfl, List.not_mem_nil c⟩
    · have hc : c ∈ l := by
        rcases List.mem_cons.mp h with h1 | h1
        · exact absurd h1 ha
        · exact h1
      obtain ⟨p, q, rfl, hp⟩ := ih hc
      refine ⟨a :: p, q, rfl, ?_⟩
      intro hmem
      rcases List.mem_cons.mp hmem with h1 | h1
      · exact ha h1
      · exact hp h1

theorem goExtAux_stop_slash (rest : List Char) :
    ∀ (xs acc : List Char), (∀ x ∈ xs, (x == '/') = false) →
      goExtAux (xs ++ '/' :: rest) acc = goExtAux xs acc := by
  intro xs
  induction xs with
  | nil =>
    intro acc _
    simp [goExtAux]
  | cons x xs ih =>
    intro acc h
    have hx := h x (List.mem_cons_self x xs)
    by_cases hd : (x == '.') = true
    · simp [goExtAux, hx, hd]
    · simpa [goExtAux, hx, hd] using
        ih (x :: acc) (fun z hz => h z (List.mem_cons_of_mem x hz))

theorem goExtAux_no_dot :
    ∀ (xs acc : List Char),
      (∀ x ∈ xs, (x == '/') = false ∧ (x == '.') = false) →
      goExtAux xs acc = [] := by
  intro xs
  induction xs with
  | nil => intro acc _; rfl
  | cons x xs ih =>
    intro acc h
    obtain ⟨hx1, hx2⟩ := h x (List.mem_cons_self x xs)
    simpa [goExtAux, hx1, hx2] using
      ih (x :: acc) (fun z hz => h z (List.mem_cons_of_mem x hz))

theorem goExtAux_first_dot (q : List Char) :
    ∀ (p acc : List Char),
      (∀ x ∈ p, (x == '/') = false ∧ (x == '.') = false) →
      goExtAux (p ++ '.' :: q) acc = '.' :: (p.reverse ++ acc) := by
  intro p
  induction p with
  | nil =>
    intro acc _
    simp [goExtAux]
  | cons x p ih =>
    intro acc h
    obtain ⟨hx1, hx2⟩ := h x (List.mem_cons_self x p)
    have hrec := ih (x :: acc) (fun z hz => h z (List.mem_cons_of_mem x hz))
    simp only [List.cons_append, goExtAux, hx1, hx2, Bool.false_eq_true, if_false]
    simpa [List.append_assoc] using hrec

theorem stem_of_slashfree (b : List Char) (hb : ∀ x ∈ b, (x == '/') = false) :
    goTrimSuffix b (goExtAux b.reverse []) = dropLastDot b := by
  by_cases hdot : '.' ∈ b
  · have hdotr : '.' ∈ b.reverse := List.mem_reverse.mpr hdot
    obtain ⟨p, q, hpq, hp⟩ := exists_first_split '.' b.reverse hdotr
    have hpcond : ∀ x ∈ p, (x == '/') = false ∧ (x == '.') = false := by
      intro x hx
      refine ⟨?_, ?_⟩
      · apply hb
        apply List.mem_reverse.mp
        rw [hpq]
        exact List.mem_append.mpr (Or.inl hx)
      · have hne : x ≠ '.' := fun he => hp (he ▸ hx)
        simpa using hne
    have hext : goExtAux b.reverse [] = '.' :: p.reverse := by
      rw [hpq, goExtAux_first_dot q p [] hpcond]
      simp
    have hbrev : b = q.reverse ++ '.' :: p.reverse := by
      have hc := congrArg List.reverse hpq
      rw [List.reverse_reverse] at hc
      rw [hc]
      simp
    rw [hext, hbrev]
    have hsuf : ('.' :: p.reverse).isSuffixOf (q.reverse ++ '.' :: p.reverse) :=
      List.isSuffixOf_iff_suffix.mpr ⟨q.reverse, rfl⟩
    unfold goTrimSuffix
    rw [if_pos hsuf]
    have hlen : (q.reverse ++ '.' :: p.reverse).length - ('.' :: p.reverse).length
        = q.reverse.length := by simp
    rw [hlen, List.take_left]
    have hdotIn : '.' ∈ q.reverse ++ '.' :: p.reverse :=
      List.mem_append.mpr (Or.inr (List.mem_cons_self '.' p.reverse))
    unfold dropLastDot
    rw [if_pos hdotIn]
    have hrr : (q.reverse ++ '.' :: p.reverse).reverse = p ++ '.' :: q := by
      simp
    rw [hrr]
    rw [dropWhile_append_sat _ '.' q (by simp) p
      (fun x hx => by simp [(hpcond x hx).2])]
    simp
  · have hcond : ∀ x ∈ b.reverse, (x == '/') = false ∧ (x == '.') = false := by
      intro x hx
      have hxb : x ∈ b := List.mem_reverse.mp hx
      have hne : x ≠ '.' := fun he => hdot (he ▸ hxb)
      exact ⟨hb x hxb, by simpa using hne⟩
    rw [goExtAux_no_dot b.reverse [] hcond]
    have hsuf : ([] : List Char).isSuffixOf b :=
      List.isSuffixOf_iff_suffix.mpr ⟨b, by simp⟩
    unfold goTrimSuffix dropLastDot
    rw [if_pos hsuf, if_neg hdot]
    simp

theorem stripTrailingSlashes_eq_self {l : List Char} (c : Char) (r : List Char)
    (hrev : l.reverse = c :: r) (hc : (c == '/') = false) :
    stripTrailingSlashes l = l := by
  unfold stripTrailingSlashes
  rw [hrev, List.dropWhile_cons_of_neg (by simp [hc]), ← hrev, List.reverse_reverse]

theorem goBase_eq_afterLastSlash {l : List Char} (c : Char) (r : List Char)
    (hrev : l.reverse = c :: r) (hc : (c == '/') = false) :
    goBase l = afterLastSlash l := by
  have hne : l ≠ [] := by
    intro h
    subst h
    simp at hrev
  have hie : l.isEmpty = false := by
    cases l with
    | nil => exact absurd rfl hne
    | cons a t => rfl
  simp [goBase, hie, stripTrailingSlashes_eq_self c r hrev hc]

theorem directiveOf_eq_specStem (l : List Char) (hne : l ≠ [])
    (hsl : l.getLast? ≠ some '/') :
    goTrimSuffix (goBase l) (goExt l) = specStem l := by
  obtain ⟨c, r, hrev⟩ : ∃ c r, l.reverse = c :: r := by
    cases hl : l.reverse with
    | nil =>
      have : l = [] := by simpa using congrArg List.reverse hl
      exact absurd this hne
    | cons c r => exact ⟨c, r, rfl⟩
  have hcl : (c == '/') = false := by
    have hlast : l.getLast? = some c := by
      rw [← List.head?_reverse, hrev]
      rfl
    have hcne : c ≠ '/' := fun he => hsl (by rw [hlast, he])
    simpa using hcne
  rw [goBase_eq_afterLastSlash c r hrev hcl]
  by_cases hs : '/' ∈ l
  · obtain ⟨a, b, hab, hbns⟩ := exists_last_split '/' l hs
    have hbcond : ∀ x ∈ b, (x == '/') = false := by
      intro x hx
      have hne2 : x ≠ '/' := fun he => hbns (he ▸ hx)
      simpa using hne2
    have hbcondr : ∀ x ∈ b.reverse, (x == '/') = false :=
      fun x hx => hbcond x (List.mem_reverse.mp hx)
    have hlr : l.reverse = b.reverse ++ '/' :: a.reverse := by
      rw [hab]
      simp
    have hals : afterLastSlash l = b := by
      unfold afterLastSlash
      rw [hlr, takeWhile_append_sat _ '/' a.reverse (by simp) b.reverse
        (fun x hx => by simp [hbcondr x hx]), List.reverse_reverse]
    have hext : goExt l = goExtAux b.reverse [] := by
      unfold goExt
      rw [hlr, goExtAux_stop_slash a.reverse b.reverse [] hbcondr]
    rw [hals, hext]
    unfold specStem
    rw [hals]
    exact stem_of_slashfree b hbcond
  · have hbcond : ∀ x ∈ l, (x == '/') = false := by
      intro x hx
      have hne2 : x ≠ '/' := fun he => hs (he ▸ hx)
      simpa using hne2
    have hals : afterLastSlash l = l := by
      unfold afterLastSlash
      rw [takeWhile_all _ l.reverse
        (fun x hx => by simp [hbcond x (List.mem_reverse.mp hx)]),
        List.reverse_reverse]
    unfold goExt
    rw [hals]
    unfold specStem
    rw [hals]
    exact stem_of_slashfree l hbcond

/-- C6: for every readable, structurally valid config file (any read
and parse outcome that lets `loadWorkerConfig` succeed, on a nonempty
path not ending in a path separator), the directive of the loaded spec
equals the filename stem, independent of the file content. -/
theorem c6_directive_is_stem :
    ∀ (readF : String → Option String) (parse : String → Option workerConfig)
      (file : String) (w : workerConfig),
      file.data ≠ [] → file.data.getLast? ≠ some '/' →
      loadWorkerConfig readF parse file = some w →
      w.directive = String.mk (specStem file.data) := by
  intro readF parse file w hne hsl hload
  cases hr : readF file with
  | none => simp [loadWorkerConfig, hr] at hload
  | some data =>
    cases hp : parse data with
    | none => simp [loadWorkerConfig, hr, hp] at hload
    | some wp =>
      simp only [loadWorkerConfig, hr, hp, Option.some.injEq] at hload
      subst hload
      exact congrArg String.mk (directiveOf_eq_specStem file.data hne hsl)

/-- Witness for C6: loading a concrete config file at
`/etc/yggdrasil/workers/echo.toml` yields the directive `echo`, the
filename stem. -/
theorem c6_directive_is_stem_witness :
    ∃ w, loadWorkerConfig readF0 parse0 "/etc/yggdrasil/workers/echo.toml" = some w ∧
      w.directive = String.mk (specStem "/etc/yggdrasil/workers/echo.toml".data) ∧
      w.directive = "echo" := by
  refine ⟨_, rfl, ?_, by decide⟩
  exact c6_directive_is_stem readF0 parse0 "/etc/yggdrasil/workers/echo.toml" _
    (by decide) (by decide) rfl

end Ygg
